import Mathlib

/-!
Verification of the TARO route/corridor core against its specification.

The Python source (`app/api/router.py`, `app/core/cache.py`,
`app/models/attraction.py`) is embedded shallowly:

* float arithmetic is idealised as exact rational arithmetic (`ℚ`);
  the one square root returned by the geometry code lives in `ℝ`;
* the SQLite-backed route cache is modelled as an association list of
  rows `(key, payload)`, one row per key, exactly the shape of the
  `route_cache` table;
* database rows are records carrying the fields the embedded code reads;
* the transcendental pieces (haversine trigonometry, the equirectangular
  `to_xy` projection) are abstracted as function parameters where an
  algorithm only consumes their output values, and are also given a
  direct real-valued definition where a claim is about them.
-/

/-! ## ResultCache (`app/core/cache.py`)

The cache state is the `route_cache` table: a list of `(key, payload)`
rows with at most one row per key (the key is the primary key, and
`INSERT OR REPLACE` preserves that).  The JSON round trip
`json.loads (json.dumps v) = v` is idealised as the identity, so the
stored payload is kept as an opaque value of type `α`. -/

/-- State of the `route_cache` table: one `(key, payload)` row per key. -/
def CacheState (α : Type) : Type := List (String × α)

/-- Embeds `get_cached` (cache.py lines 33-44): select the row whose key
matches and return its payload, `none` on a miss. -/
def get_cached {α : Type} : CacheState α → String → Option α
  | [], _ => none
  | p :: rest, key => if p.1 = key then some p.2 else get_cached rest key

/-- Embeds `set_cached` (cache.py lines 47-56): `INSERT OR REPLACE` on the
primary key, i.e. drop any row with the same key and add the new row. -/
def set_cached {α : Type} (s : CacheState α) (key : String) (result : α) :
    CacheState α :=
  (s.filter (fun p => !(p.1 == key))) ++ [(key, result)]

/-- Embeds `clear_cache` (cache.py lines 59-72): count the rows, delete
them all, and return the prior count. -/
def clear_cache {α : Type} (s : CacheState α) : Nat × CacheState α :=
  (s.length, ([] : List (String × α)))

/-! ## Cache key construction (`router.py` lines 527-532, `make_cache_key`) -/

/-- Embeds the endpoint rendering `f"{c[0]},{c[1]}" if c else ""` of
`make_cache_key`; Python `str(float)` is deterministic per value, which
the `ToString ℚ` rendering models. -/
def coordPart (c : Option (ℚ × ℚ)) : String :=
  match c with
  | some d => toString d.1 ++ "," ++ toString d.2
  | none => ""

/-- Embeds `make_cache_key` (router.py lines 527-532): sorted candidate
ids joined by commas, endpoints rendered to strings, concatenated into
one key string.  Python `sorted` is embedded as a stable structural
sort; any stable sort by a total preorder computes the same list. -/
def make_cache_key (attraction_ids : List String)
    (departure arrival : Option (ℚ × ℚ)) : String :=
  let dep := coordPart departure
  let arr := coordPart arrival
  let ids_part :=
    String.intercalate "," (List.insertionSort (· ≤ ·) attraction_ids)
  "opt:dep=" ++ dep ++ ":arr=" ++ arr ++ ":ids=" ++ ids_part

/-! ## Attraction rows and `_dedupe_rows_by_id` (`router.py` lines 166-177)

`SRow` carries exactly the fields of an `attractions` row that the
embedded code reads.  `wktCoord` stands for the result of the WKT
fallback parse of `_parse_coord_from_row` (a pure string parse whose
outcome is a coordinate pair or nothing). -/

/-- Database row of the `attractions` table, restricted to the fields the
embedded functions read. -/
structure SRow where
  id : Option String
  name : Option String
  category : Option String
  leisure : Option String
  tourism : Option String
  historic : Option String
  amenity : Option String
  shop : Option String
  sport : Option String
  lat : Option ℚ
  lon : Option ℚ
  wktCoord : Option (ℚ × ℚ)
  deriving Repr, DecidableEq

/-- Recursion core of `_dedupe_rows_by_id`, with the `seen` id set made
an explicit accumulator. -/
def dedupeGo (seen : List String) : List SRow → List SRow
  | [] => []
  | r :: rest =>
    match r.id with
    | none => dedupeGo seen rest
    | some i =>
      if i ∈ seen then dedupeGo seen rest
      else r :: dedupeGo (i :: seen) rest

/-- Embeds `_dedupe_rows_by_id` (router.py lines 166-177): drop rows with
a null id, keep the first row of each id, preserve order. -/
def dedupe_rows_by_id (rows : List SRow) : List SRow :=
  dedupeGo [] rows

/-! ## Corridor search (`router.py` lines 643-718, `search_between`)

The geometry of the corridor test is delegated to
`_point_segment_distance_km` and `_projection_fraction`, both applied to
the two geocoded endpoints; since those involve transcendental
trigonometry on floats, the selection pipeline below takes the two
closures `distF` (perpendicular distance of a coordinate, km) and
`fracF` (clamped route fraction of a coordinate) as parameters.  Their
own behaviour is verified separately on the planar embedding. -/

/-- Embeds `_parse_coord_from_row` (router.py lines 100-119): use the
`lat`/`lon` columns when both are present, otherwise fall back to the
WKT point parse (whose string-scanning outcome is the `wktCoord`
field). -/
def parse_coord_from_row (r : SRow) : Option (ℚ × ℚ) :=
  match r.lat, r.lon with
  | some la, some lo => some (la, lo)
  | _, _ => r.wktCoord

/-- Character-level core of Python `str.title`: the first letter of each
alphabetic run is upper-cased, the rest lower-cased. -/
def titleChars : Bool → List Char → List Char
  | _, [] => []
  | prevAlpha, c :: cs =>
    (if c.isAlpha then (if prevAlpha then c.toLower else c.toUpper) else c) ::
      titleChars c.isAlpha cs

/-- Python `str.title`. -/
def pyTitle (s : String) : String := ⟨titleChars false s.data⟩

/-- Python `value.replace(underscore, space)` as used in
`_get_best_category`. -/
def underscoreToSpace (s : String) : String :=
  s.map (fun c => if c = '_' then ' ' else c)

/-- Python truthiness filter for an optional string: `None` and the empty
string count as absent. -/
def nonEmptyStr : Option String → Option String
  | some s => if s = "" then none else some s
  | none => none

/-- First non-empty tag value, in the fixed order of `osm_tags`. -/
def firstTag : List (Option String) → Option String
  | [] => none
  | v :: rest =>
    match nonEmptyStr v with
    | some s => some s
    | none => firstTag rest

/-- Embeds `_get_best_category` (router.py lines 242-254): a non-empty
`category` column wins; otherwise the first non-empty OSM tag among
`leisure, tourism, historic, amenity, shop, sport`, underscore-replaced
and title-cased; otherwise the literal `"Other"`. -/
def get_best_category (r : SRow) : String :=
  match nonEmptyStr r.category with
  | some s => s
  | none =>
    match firstTag [r.leisure, r.tourism, r.historic, r.amenity, r.shop, r.sport] with
    | some v => pyTitle (underscoreToSpace v)
    | none => "Other"

/-- Tests whether `needle` is an initial run of `hay`. -/
def charsStartWith : List Char → List Char → Bool
  | [], _ => true
  | _ :: _, [] => false
  | c :: cs, d :: ds => c == d && charsStartWith cs ds

/-- Tests whether `needle` occurs contiguously in `hay`. -/
def charsContain (needle : List Char) : List Char → Bool
  | [] => needle.isEmpty
  | c :: rest => charsStartWith needle (c :: rest) || charsContain needle rest

/-- Python `needle in hay` substring test. -/
def strContains (hay needle : String) : Bool :=
  charsContain needle.data hay.data

/-- Python `s.lower()` (ASCII). -/
def strLower (s : String) : String := s.map Char.toLower

/-- Embeds the token normalisation of `search_between` (router.py line
669): strip each requested category, drop empties, lower-case. -/
def tokensOf (categories : List String) : List String :=
  categories.filterMap (fun c =>
    let t := c.trim
    if t = "" then none else some (strLower t))

/-- Embeds the score computation of `search_between` (router.py lines
685-696): score 1 when no tokens were requested, or when some token
equals the lowered category or occurs in the lowered name; else 0. -/
def scoreOf (tokens : List String) (name : Option String)
    (best_cat : String) : Nat :=
  if tokens.isEmpty then 1
  else
    let name_part := strLower (name.getD "")
    let cat_part := strLower best_cat
    if tokens.any (fun tok => tok == cat_part || strContains name_part tok)
    then 1 else 0

/-- One element of the `candidates` list of `search_between`: the tuple
`(score, t, dist_km, row)` where `row` already carries the
`r['category'] = best_cat` mutation. -/
structure Cand where
  score : Nat
  t : ℚ
  dist_km : ℚ
  row : SRow
  deriving Repr, DecidableEq

/-- Embeds `req.radius_km or 5.0`: Python `or` treats both a missing and
a zero radius as falsy, so both fall back to 5.0 km. -/
def effRadius (radius : Option ℚ) : ℚ :=
  match radius with
  | none => 5
  | some r => if r = 0 then 5 else r

/-- Embeds `int(req.limit or 10)`: a missing or zero limit falls back to
10. -/
def effLimit (limit : Option Int) : Int :=
  match limit with
  | none => 10
  | some v => if v = 0 then 10 else v

/-- Embeds the trashed-ids filter of `search_between` (router.py lines
664-666): applied only when the list is non-empty (Python truthiness);
a row with a null id is never trashed. -/
def trashedFilter (trashed : List String) (rows : List SRow) : List SRow :=
  if trashed.isEmpty then rows
  else rows.filter (fun r =>
    match r.id with
    | some i => !(trashed.contains i)
    | none => true)

/-- Embeds the candidate-building loop of `search_between` (router.py
lines 673-703): parse a coordinate, keep the row when its corridor
distance is within the radius, compute the route fraction and best
category, mutate the row's category, score it, and keep it only when the
score is positive.  (The `website_url` mutation of the kept row is
omitted: it affects neither selection nor ordering.) -/
def candidatesOf (distF fracF : ℚ × ℚ → ℚ) (radius : Option ℚ)
    (tokens : List String) (rows : List SRow) : List Cand :=
  rows.filterMap (fun r =>
    match parse_coord_from_row r with
    | none => none
    | some coord =>
      if distF coord ≤ effRadius radius then
        if 0 < scoreOf tokens r.name (get_best_category r) then
          some ⟨scoreOf tokens r.name (get_best_category r), fracF coord,
            distF coord, { r with category := some (get_best_category r) }⟩
        else none
      else none)

/-- Code-point sequence of a string: Python compares strings
lexicographically by code point. -/
def strKey (s : String) : List ℕ := s.data.map Char.toNat

/-- Sort key of `search_between` line 706:
`(x[3].get('category', 'Z'), x[1])`, the category string taken as its
code-point sequence. -/
def candKey (c : Cand) : List ℕ × ℚ :=
  (strKey (c.row.category.getD "Z"), c.t)

/-- Lexicographic comparison of candidate sort keys, as Python compares
`(str, float)` tuples. -/
def candLe (c₁ c₂ : Cand) : Prop :=
  (candKey c₁).1 < (candKey c₂).1
  ∨ ((candKey c₁).1 = (candKey c₂).1 ∧ (candKey c₁).2 ≤ (candKey c₂).2)

instance : DecidableRel candLe := fun c₁ c₂ => by
  unfold candLe
  exact inferInstance

instance : IsTotal Cand candLe := by
  constructor
  intro a b
  rcases lt_trichotomy (candKey a).1 (candKey b).1 with h | h | h
  · exact Or.inl (Or.inl h)
  · rcases le_total (candKey a).2 (candKey b).2 with ht | ht
    · exact Or.inl (Or.inr ⟨h, ht⟩)
    · exact Or.inr (Or.inr ⟨h.symm, ht⟩)
  · exact Or.inr (Or.inl h)

instance : IsTrans Cand candLe := by
  constructor
  intro a b c hab hbc
  rcases hab with hab | ⟨hab, hab'⟩
  · rcases hbc with hbc | ⟨hbc, _⟩
    · exact Or.inl (hab.trans hbc)
    · exact Or.inl (hbc ▸ hab)
  · rcases hbc with hbc | ⟨hbc, hbc'⟩
    · exact Or.inl (hab ▸ hbc)
    · exact Or.inr ⟨hab.trans hbc, hab'.trans hbc'⟩

/-- Embeds the selection pipeline of `search_between` (router.py lines
664-718), from the trashed-ids filter to the final `rows[:limit]`
slice.  Python's stable `list.sort` is embedded as the stable
`insertionSort`; a stable sort by a total preorder is unique, so the
lists agree.  Returns the `rows` list of the response; its length is
the reported `count`. -/
def search_between_rows (distF fracF : ℚ × ℚ → ℚ) (rows : List SRow)
    (trashed categories : List String) (radius : Option ℚ)
    (limit : Option Int) : List SRow :=
  let rows₁ := trashedFilter trashed rows
  let tokens := tokensOf categories
  let candidates := candidatesOf distF fracF radius tokens rows₁
  let sorted := List.insertionSort candLe candidates
  let rows_ordered := dedupe_rows_by_id (sorted.map (fun c => c.row))
  let limit_n := effLimit limit
  if limit_n ≤ 0 then [] else rows_ordered.take limit_n.toNat

/-- Sort key read back from a returned row: the mutated `category`
column (defaulting to `"Z"` as in the code) paired with the recomputed
route fraction of the row's coordinate. -/
def rowKeyLe (fracF : ℚ × ℚ → ℚ) (r₁ r₂ : SRow) : Prop :=
  strKey (r₁.category.getD "Z") < strKey (r₂.category.getD "Z")
  ∨ (strKey (r₁.category.getD "Z") = strKey (r₂.category.getD "Z")
      ∧ fracF ((parse_coord_from_row r₁).getD (0, 0))
          ≤ fracF ((parse_coord_from_row r₂).getD (0, 0)))

/-! ## Corridor geometry (`router.py` lines 121-164)

`_point_segment_distance_km` and `_projection_fraction` first map the
three geographic points through the equirectangular projection `to_xy`
anchored at `a` (transcendental: radians and cosine), then work purely
in the plane.  The planar computation is embedded exactly; the
projection is the function parameter `toXY`, applied to `p`, `a`, `b`
just as the code applies `to_xy`. -/

/-- Squared Euclidean plane distance `dx*dx + dy*dy`. -/
def planeDistSq (u v : ℚ × ℚ) : ℚ :=
  (u.1 - v.1) * (u.1 - v.1) + (u.2 - v.2) * (u.2 - v.2)

/-- Euclidean plane distance, the `** 0.5` of the code. -/
noncomputable def planeDist (u v : ℚ × ℚ) : ℝ :=
  Real.sqrt (planeDistSq u v)

/-- The code's `vlen2 = vx*vx + vy*vy`. -/
def seg_vlen2 (A B : ℚ × ℚ) : ℚ :=
  (B.1 - A.1) * (B.1 - A.1) + (B.2 - A.2) * (B.2 - A.2)

/-- The code's unclamped projection parameter
`t = (wx*vx + wy*vy) / vlen2`. -/
def seg_t (P A B : ℚ × ℚ) : ℚ :=
  ((P.1 - A.1) * (B.1 - A.1) + (P.2 - A.2) * (B.2 - A.2)) / seg_vlen2 A B

/-- Planar core of `_point_segment_distance_km` (router.py lines
121-144), before the final square root: distance to `a` when the
segment is degenerate, otherwise distance to the projection clamped to
the segment. -/
def seg_sq (P A B : ℚ × ℚ) : ℚ :=
  if seg_vlen2 A B = 0 then planeDistSq P A
  else
    planeDistSq P
      (A.1 + max 0 (min 1 (seg_t P A B)) * (B.1 - A.1),
       A.2 + max 0 (min 1 (seg_t P A B)) * (B.2 - A.2))

/-- Embeds `_point_segment_distance_km` (router.py lines 121-144): the
three points pass through the `to_xy` projection `toXY`, then the
planar clamped-projection distance is returned. -/
noncomputable def point_segment_distance_km (toXY : ℚ × ℚ → ℚ × ℚ)
    (p a b : ℚ × ℚ) : ℝ :=
  Real.sqrt (seg_sq (toXY p) (toXY a) (toXY b))

/-- Embeds `_projection_fraction` (router.py lines 146-164): `0.0` for a
degenerate segment, otherwise the projection parameter clamped to
`[0, 1]`. -/
def projection_fraction (toXY : ℚ × ℚ → ℚ × ℚ) (p a b : ℚ × ℚ) : ℚ :=
  if seg_vlen2 (toXY a) (toXY b) = 0 then 0
  else max 0 (min 1 (seg_t (toXY p) (toXY a) (toXY b)))

/-! ## Route sequencing orchestration (`router.py` lines 490-631,
`optimize_route`)

Only the claim-relevant slice is embedded: resolving ids to attraction
records with usable coordinates (C9), and the branch that decides
between a cached payload, the local heuristic and the external-provider
preparation (C8).  Coordinate deduplication in the code compares the
rendered strings `f"{lat},{lon}"`; equal renderings coincide with equal
coordinate values, which is how `collectCoords` models the seen-set. -/

/-- Embeds `get_safe_string` (attraction.py lines 4-9): `None` and the
literal string `"None"` count as absent. -/
def get_safe_string (v : Option String) : Option String :=
  match v with
  | none => none
  | some s => if s = "None" then none else some s

/-- Attraction record (attraction.py), restricted to the fields
`optimize_route` reads: the id and the raw coordinate columns. -/
structure Attraction where
  id : Option String
  lat : Option ℚ
  lon : Option ℚ
  deriving Repr, DecidableEq

/-- Embeds `Attraction.from_row` for the fields above: the id passes
through `get_safe_string`, the coordinates are taken raw. -/
def attraction_from_row (r : SRow) : Attraction :=
  ⟨get_safe_string r.id, r.lat, r.lon⟩

/-- Embeds `Attraction.to_coord` (attraction.py lines 58-61). -/
def to_coord (a : Attraction) : Option (ℚ × ℚ) :=
  match a.lat, a.lon with
  | some la, some lo => some (la, lo)
  | _, _ => none

/-- Embeds the `id_to_attraction` dict build (router.py lines 499-503):
rows with a truthy id keyed by it; a later row overwrites an earlier
one with the same id. -/
def idPairs (rows : List SRow) : List (String × Attraction) :=
  rows.filterMap (fun r =>
    match nonEmptyStr (attraction_from_row r).id with
    | some i => some (i, attraction_from_row r)
    | none => none)

/-- Dict lookup where the last insertion for a key wins. -/
def lookupLast (pairs : List (String × Attraction)) (uid : String) :
    Option Attraction :=
  (pairs.reverse.find? (fun p => p.1 == uid)).map (fun p => p.2)

/-- Embeds the requested-order resolution loop (router.py lines
506-509): each requested id that is in the dict contributes its
attraction, in request order. -/
def resolveAttractions (ids : List String) (rows : List SRow) :
    List Attraction :=
  ids.filterMap (lookupLast (idPairs rows))

/-- Embeds the coordinate collection loop (router.py lines 512-524):
skip attractions without a coordinate, keep the first attraction per
distinct coordinate. -/
def collectCoords (seen : List (ℚ × ℚ)) : List Attraction → List (ℚ × ℚ)
  | [] => []
  | a :: rest =>
    match to_coord a with
    | none => collectCoords seen rest
    | some c =>
      if c ∈ seen then collectCoords seen rest
      else c :: collectCoords (c :: seen) rest

/-- Embeds the input-resolution stage of `optimize_route` (router.py
lines 506-526): no resolvable attraction is a 404, no usable coordinate
is a 400, otherwise the deduplicated coordinate list flows on. -/
def optimize_resolve (ids : List String) (rows : List SRow) :
    Except Nat (List (ℚ × ℚ)) :=
  if (resolveAttractions ids rows).isEmpty then Except.error 404
  else if (collectCoords [] (resolveAttractions ids rows)).isEmpty then
    Except.error 400
  else Except.ok (collectCoords [] (resolveAttractions ids rows))

/-- Cached payload as `optimize_route` inspects it: whether it is a JSON
dict and whether it carries the `prepared_request` placeholder marker. -/
structure CachedPayload where
  isDict : Bool
  hasPreparedRequest : Bool
  deriving Repr, DecidableEq

/-- The three processing paths after the cache check. -/
inductive RoutePath where
  | fromCache
  | localTsp
  | externalPrep
  deriving Repr, DecidableEq

/-- Embeds the waypoint-cap branch (router.py line 552): strictly more
deduplicated coordinates than the cap means the local heuristic runs,
otherwise the external-provider request is prepared. -/
def route_path_after_cache (nCoords maxWaypoints : ℕ) : RoutePath :=
  if maxWaypoints < nCoords then RoutePath.localTsp
  else RoutePath.externalPrep

/-- Embeds the cache-validation branch of `optimize_route` (router.py
lines 540-551): a hit is returned unless it is a dict holding a
`prepared_request` placeholder while the current coordinate count
exceeds the cap, in which case the hit is ignored and control falls
through to the cap branch. -/
def optimize_route_path (cached : Option CachedPayload)
    (nCoords maxWaypoints : ℕ) : RoutePath :=
  match cached with
  | some c =>
    if c.isDict && c.hasPreparedRequest && decide (maxWaypoints < nCoords)
    then route_path_after_cache nCoords maxWaypoints
    else RoutePath.fromCache
  | none => route_path_after_cache nCoords maxWaypoints

/-! ## RouteSequencer (`router.py` lines 179-226)

`local_greedy_tsp` and `two_opt` consume the coordinate list only
through `haversine(coords[i], coords[j])`; the haversine itself is
transcendental float trigonometry, so both algorithms are embedded over
an abstract distance oracle `d i j` standing for that closure.
Haversine is symmetric, which is the only property of it the theorems
assume. -/

/-- The `best`/`bestd` scan of `local_greedy_tsp` (router.py lines
188-196): fold over the unvisited indices, replacing the current best
on a strictly smaller distance (so the first minimiser wins). -/
def pickBest (f : ℕ → ℚ) (best : Option ℕ) : List ℕ → Option ℕ
  | [] => best
  | i :: rest =>
    pickBest f
      (match best with
       | none => some i
       | some b => if f i < f b then some i else some b) rest

/-- The main loop of `local_greedy_tsp`: `fuel` counts the remaining
iterations (`n - 1` at the start), `last` is `order[-1]`, and the
unvisited set is exactly the complement of `order` in `range n`. -/
def nnLoop (d : ℕ → ℕ → ℚ) (n : ℕ) : ℕ → ℕ → List ℕ → List ℕ
  | 0, _, order => order
  | fuel + 1, last, order =>
    match pickBest (d last) none
        ((List.range n).filter (fun i => decide (i ∉ order))) with
    | none => order
    | some b => nnLoop d n fuel b (order ++ [b])

/-- Embeds `local_greedy_tsp` (router.py lines 179-201) over the
distance oracle `d` and the input length `n`: empty input gives an
empty tour, otherwise the nearest-neighbour loop starts at index 0. -/
def local_greedy_tsp (d : ℕ → ℕ → ℚ) (n : ℕ) : List ℕ :=
  if n = 0 then [] else nnLoop d n (n - 1) 0 [0]

/-- Total length of a tour: sum of the distances of consecutive
entries. -/
def tourLen (d : ℕ → ℕ → ℚ) : List ℕ → ℚ
  | [] => 0
  | [_] => 0
  | x :: y :: rest => d x y + tourLen d (y :: rest)

/-- The code's float-jitter guard `1e-6`, built directly so that the
kernel can evaluate it. -/
def epsQ : ℚ := ⟨1, 1000000, by decide, by decide⟩

/-- The `delta` of `two_opt` (router.py line 219) for the edge pair at
tour positions `(a, a+1)` and `(b, b+1)`. -/
def deltaAt (d : ℕ → ℕ → ℚ) (o : List ℕ) (a b : ℕ) : ℚ :=
  d (o.getD a 0) (o.getD b 0) + d (o.getD (a + 1) 0) (o.getD (b + 1) 0)
    - (d (o.getD a 0) (o.getD (a + 1) 0) + d (o.getD b 0) (o.getD (b + 1) 0))

/-- The scan order of `two_opt`'s nested loops: `a` from `0` to `n-3`,
`b` from `a+2` to `n-2`. -/
def movePairs (n : ℕ) : List (ℕ × ℕ) :=
  (List.range (n - 2)).flatMap
    (fun a => (List.range' (a + 2) (n - 1 - (a + 2))).map (fun b => (a, b)))

/-- The first improving move of a scan, or `none` when a full pass finds
no `delta < -1e-6`. -/
def findMove (d : ℕ → ℕ → ℚ) (o : List ℕ) : Option (ℕ × ℕ) :=
  (movePairs o.length).find? (fun ab => decide (deltaAt d o ab.1 ab.2 < -epsQ))

/-- The segment reversal `order[a+1:b+1] = reversed(...)` of router.py
line 221. -/
def applyMove (o : List ℕ) (a b : ℕ) : List ℕ :=
  o.take (a + 1) ++ ((o.drop (a + 1)).take (b - a)).reverse ++ o.drop (b + 1)

/-- One iteration of the `while improved` loop: scan for the first
improving move and apply it. -/
def twoOptPass (d : ℕ → ℕ → ℚ) (o : List ℕ) : List ℕ :=
  match findMove d o with
  | none => o
  | some ab => applyMove o ab.1 ab.2

/-- The `while improved and iters < max_iters` loop of `two_opt`: each
iteration applies at most one improving move, and the loop stops early
when a scan finds none. -/
def twoOptLoop (d : ℕ → ℕ → ℚ) : ℕ → List ℕ → List ℕ
  | 0, o => o
  | m + 1, o =>
    match findMove d o with
    | none => o
    | some ab => twoOptLoop d m (applyMove o ab.1 ab.2)

/-- Embeds `two_opt` (router.py lines 203-226): tours shorter than 4
are returned unchanged, otherwise the first-improvement loop runs for
at most `max_iters` iterations. -/
def two_opt (d : ℕ → ℕ → ℚ) (order : List ℕ) (max_iters : ℕ) : List ℕ :=
  if order.length < 4 then order else twoOptLoop d max_iters order

/-- Collinear sample configuration: point `i` sits at kilometre
`posList[i]` along a line (realisable on a meridian, where haversine is
proportional to the coordinate difference). -/
def posList : List ℚ := [0, 3, 1, 2, 4]

/-- Position of sample point `i`. -/
def posEx (i : ℕ) : ℚ := posList.getD i 0

/-- Distance oracle of the collinear sample configuration. -/
def dEx (i j : ℕ) : ℚ := |posEx i - posEx j|

/-! ## Concrete sample inputs

Concrete geometry closures and attraction rows used to instantiate the
corridor-search theorems: `distZero` puts every coordinate on the
route, `fracFst` reads the route fraction directly from the first
coordinate component. -/

/-- Degenerate corridor distance: every coordinate lies on the route. -/
def distZero : ℚ × ℚ → ℚ := fun _ => 0

/-- Route fraction read off the first coordinate component. -/
def fracFst : ℚ × ℚ → ℚ := fun c => c.1

/-- The rational one half, built directly so that kernel evaluation
works. -/
def halfQ : ℚ := ⟨1, 2, by decide, by decide⟩

/-- Sample row: id `x`, category `B`, route fraction 0. -/
def rowCatB : SRow :=
  ⟨some "x", some "xname", some "B", none, none, none, none, none, none,
    some 0, some 0, none⟩

/-- Sample row: id `y`, category `A`, route fraction 1. -/
def rowCatA : SRow :=
  ⟨some "y", some "yname", some "A", none, none, none, none, none, none,
    some 1, some 0, none⟩

/-- Sample row: id `m1`, category `Museum`, route fraction 0. -/
def rowMus1 : SRow :=
  ⟨some "m1", some "Museum One", some "Museum", none, none, none, none,
    none, none, some 0, some 0, none⟩

/-- Sample row: id `m2`, category `Museum`, route fraction one half. -/
def rowMus2 : SRow :=
  ⟨some "m2", some "Museum Two", some "Museum", none, none, none, none,
    none, none, some halfQ, some 0, none⟩

/-! # Theorems -/

/-! ### Cache helper lemmas -/

theorem get_set_self {α : Type} (s : CacheState α) (k : String) (v : α) :
    get_cached (set_cached s k v) k = some v := by
  unfold set_cached
  induction s with
  | nil => simp [get_cached]
  | cons p rest ih =>
    by_cases h : p.1 = k
    · simpa [List.filter_cons, h] using ih
    · simpa [List.filter_cons, h, get_cached] using ih

theorem get_set_other {α : Type} (s : CacheState α) (k k' : String) (v : α)
    (h : k' ≠ k) :
    get_cached (set_cached s k v) k' = get_cached s k' := by
  unfold set_cached
  induction s with
  | nil => simp [get_cached, Ne.symm h]
  | cons p rest ih =>
    by_cases hp : p.1 = k
    · have hpk' : ¬ p.1 = k' := by
        rw [hp]; exact Ne.symm h
      simpa [List.filter_cons, hp, get_cached, hpk', Ne.symm h] using ih
    · by_cases hp' : p.1 = k'
      · simp [List.filter_cons, hp, get_cached, hp', h]
      · simpa [List.filter_cons, hp, get_cached, hp', h] using ih

theorem count_set_key {α : Type} (s : CacheState α) (k : String) (v : α) :
    ((set_cached s k v).map Prod.fst).count k = 1 := by
  unfold set_cached
  induction s with
  | nil => simp
  | cons p rest ih =>
    by_cases hp : p.1 = k
    · simpa [hp] using ih
    · simpa [hp, List.count_cons] using ih

/-- C6: setting a key then reading it back returns the payload unchanged;
a set fully replaces any prior entry for that key (exactly one row for
the key afterwards, other keys untouched); clearing reports the exact
prior row count, after which every read misses. -/
theorem cache_roundtrip_replace_clear {α : Type} (s : CacheState α)
    (k k' : String) (v : α) :
    get_cached (set_cached s k v) k = some v
    ∧ (k' ≠ k → get_cached (set_cached s k v) k' = get_cached s k')
    ∧ ((set_cached s k v).map Prod.fst).count k = 1
    ∧ (clear_cache s).1 = s.length
    ∧ get_cached (clear_cache s).2 k' = none := by
  refine ⟨get_set_self s k v, ?_, count_set_key s k v, rfl, ?_⟩
  · intro h
    exact get_set_other s k k' v h
  · rfl

/-- Witness for C6 at a concrete state and keys. -/
theorem cache_roundtrip_replace_clear_witness :
    get_cached (set_cached [("a", 1)] "a" 2) "a" = some 2
    ∧ get_cached (set_cached [("a", 1)] "a" 2) "b" = get_cached [("a", 1)] "b" := by
  have h := cache_roundtrip_replace_clear (α := Nat) [("a", 1)] "a" "b" 2
  exact ⟨h.1, h.2.1 (by decide)⟩

/-! ### Cache key -/

/-- C7: the cache key is invariant under reordering the candidate
identifier list, endpoints held equal: the sorted-id rendering gives the
same key string for permuted id lists. -/
theorem make_cache_key_perm_invariant (ids₁ ids₂ : List String)
    (dep arr : Option (ℚ × ℚ)) (h : ids₁.Perm ids₂) :
    make_cache_key ids₁ dep arr = make_cache_key ids₂ dep arr := by
  unfold make_cache_key
  have hsorted : List.insertionSort (· ≤ ·) ids₁ =
      List.insertionSort (· ≤ ·) ids₂ := by
    apply List.eq_of_perm_of_sorted (r := (· ≤ ·))
      ((List.perm_insertionSort _ ids₁).trans
        (h.trans (List.perm_insertionSort _ ids₂).symm))
      (List.sorted_insertionSort _ ids₁) (List.sorted_insertionSort _ ids₂)
  rw [hsorted]

/-- Witness for C7: two orderings of the same id set yield the same key. -/
theorem make_cache_key_perm_invariant_witness :
    make_cache_key ["b", "a"] none none =
      make_cache_key ["a", "b"] none none :=
  make_cache_key_perm_invariant ["b", "a"] ["a", "b"] none none
    (by decide)

/-! ### Deduplication by id -/

theorem dedupeGo_cons_none (seen : List String) (q : SRow)
    (rest : List SRow) (h : q.id = none) :
    dedupeGo seen (q :: rest) = dedupeGo seen rest := by
  simp [dedupeGo, h]

theorem dedupeGo_cons_mem (seen : List String) (q : SRow)
    (rest : List SRow) (i : String) (h : q.id = some i) (hi : i ∈ seen) :
    dedupeGo seen (q :: rest) = dedupeGo seen rest := by
  simp [dedupeGo, h, hi]

theorem dedupeGo_cons_new (seen : List String) (q : SRow)
    (rest : List SRow) (i : String) (h : q.id = some i) (hi : i ∉ seen) :
    dedupeGo seen (q :: rest) = q :: dedupeGo (i :: seen) rest := by
  simp [dedupeGo, h, hi]

theorem dedupeGo_sublist (seen : List String) (rows : List SRow) :
    (dedupeGo seen rows).Sublist rows := by
  induction rows generalizing seen with
  | nil => simp [dedupeGo]
  | cons r rest ih =>
    match hid : r.id with
    | none =>
      rw [dedupeGo_cons_none seen r rest hid]
      exact (ih seen).cons r
    | some i =>
      by_cases hi : i ∈ seen
      · rw [dedupeGo_cons_mem seen r rest i hid hi]
        exact (ih seen).cons r
      · rw [dedupeGo_cons_new seen r rest i hid hi]
        exact (ih (i :: seen)).cons₂ r

theorem id_of_mem_dedupeGo (seen : List String) (rows : List SRow)
    (r : SRow) (hr : r ∈ dedupeGo seen rows) :
    ∃ i, r.id = some i ∧ i ∉ seen := by
  induction rows generalizing seen with
  | nil => simp [dedupeGo] at hr
  | cons q rest ih =>
    match hid : q.id with
    | none =>
      rw [dedupeGo_cons_none seen q rest hid] at hr
      exact ih seen hr
    | some i =>
      by_cases hi : i ∈ seen
      · rw [dedupeGo_cons_mem seen q rest i hid hi] at hr
        exact ih seen hr
      · rw [dedupeGo_cons_new seen q rest i hid hi] at hr
        rcases List.mem_cons.mp hr with rfl | hr₂
        · exact ⟨i, hid, hi⟩
        · obtain ⟨j, hj, hjs⟩ := ih (i :: seen) hr₂
          exact ⟨j, hj, fun hmem => hjs (List.mem_cons_of_mem i hmem)⟩

theorem dedupeGo_id_nodup (seen : List String) (rows : List SRow) :
    ((dedupeGo seen rows).map SRow.id).Nodup := by
  induction rows generalizing seen with
  | nil => simp [dedupeGo]
  | cons q rest ih =>
    match hid : q.id with
    | none =>
      rw [dedupeGo_cons_none seen q rest hid]
      exact ih seen
    | some i =>
      by_cases hi : i ∈ seen
      · rw [dedupeGo_cons_mem seen q rest i hid hi]
        exact ih seen
      · rw [dedupeGo_cons_new seen q rest i hid hi]
        refine List.nodup_cons.mpr ⟨?_, ih (i :: seen)⟩
        intro hmem
        rw [hid] at hmem
        obtain ⟨r', hr', hid'⟩ := List.mem_map.mp hmem
        obtain ⟨j, hj, hjs⟩ := id_of_mem_dedupeGo (i :: seen) rest r' hr'
        rw [hj] at hid'
        exact hjs (by simp [Option.some_inj.mp hid'])

theorem dedupeGo_first_occurrence (seen : List String) (rows : List SRow)
    (r' : SRow) (i : String) (hr' : r' ∈ dedupeGo seen rows)
    (hid : r'.id = some i) :
    rows.find? (fun r => r.id == some i) = some r' := by
  induction rows generalizing seen with
  | nil => simp [dedupeGo] at hr'
  | cons q rest ih =>
    match hq : q.id with
    | none =>
      rw [dedupeGo_cons_none seen q rest hq] at hr'
      rw [List.find?_cons_of_neg _ (by simp [hq])]
      exact ih seen hr'
    | some j =>
      by_cases hj : j ∈ seen
      · rw [dedupeGo_cons_mem seen q rest j hq hj] at hr'
        obtain ⟨i', hi', his⟩ := id_of_mem_dedupeGo seen rest r' hr'
        have hij : i = i' := by rw [hid] at hi'; exact Option.some_inj.mp hi'
        have hne : ¬ j = i := by
          intro h
          apply his
          rw [← hij, ← h]
          exact hj
        rw [List.find?_cons_of_neg _ (by simp [hq, hne])]
        exact ih seen hr'
      · rw [dedupeGo_cons_new seen q rest j hq hj] at hr'
        rcases List.mem_cons.mp hr' with rfl | hr₂
        · have hji : j = i := by rw [hq] at hid; exact Option.some_inj.mp hid
          rw [List.find?_cons_of_pos _ (by simp [hq, hji])]
        · obtain ⟨i', hi', his⟩ := id_of_mem_dedupeGo (j :: seen) rest r' hr₂
          have hij : i = i' := by rw [hid] at hi'; exact Option.some_inj.mp hi'
          have hne : ¬ j = i := by
            intro h
            apply his
            rw [← hij, ← h]
            exact List.mem_cons_self j seen
          rw [List.find?_cons_of_neg _ (by simp [hq, hne])]
          exact ih (j :: seen) hr₂

theorem dedupeGo_covers (seen : List String) (rows : List SRow)
    (r : SRow) (i : String) (hr : r ∈ rows) (hid : r.id = some i)
    (hseen : i ∉ seen) :
    ∃ r' ∈ dedupeGo seen rows, r'.id = some i := by
  induction rows generalizing seen with
  | nil => simp at hr
  | cons q rest ih =>
    match hq : q.id with
    | none =>
      rw [dedupeGo_cons_none seen q rest hq]
      rcases List.mem_cons.mp hr with hr₁ | hr₂
      · subst hr₁; rw [hq] at hid; cases hid
      · exact ih seen hr₂ hseen
    | some j =>
      by_cases hj : j ∈ seen
      · rw [dedupeGo_cons_mem seen q rest j hq hj]
        rcases List.mem_cons.mp hr with hr₁ | hr₂
        · subst hr₁
          rw [hq] at hid
          exact absurd (Option.some_inj.mp hid ▸ hj) hseen
        · exact ih seen hr₂ hseen
      · rw [dedupeGo_cons_new seen q rest j hq hj]
        by_cases hij : i = j
        · exact ⟨q, List.mem_cons_self _ _, by rw [hq, hij]⟩
        · rcases List.mem_cons.mp hr with hr₁ | hr₂
          · subst hr₁
            rw [hq] at hid
            exact absurd (Option.some_inj.mp hid).symm hij
          · obtain ⟨r', hr', hid'⟩ :=
              ih (j :: seen) hr₂ (by simp [hij, hseen])
            exact ⟨r', List.mem_cons_of_mem q hr', hid'⟩

/-- C10: `_dedupe_rows_by_id` drops every null-id row and keeps, in the
original relative order, exactly the first row of each distinct id; the
output has no duplicate ids and no null-id row. -/
theorem dedupe_rows_by_id_spec (rows : List SRow) :
    (dedupe_rows_by_id rows).Sublist rows
    ∧ (∀ r ∈ dedupe_rows_by_id rows, r.id ≠ none)
    ∧ ((dedupe_rows_by_id rows).map SRow.id).Nodup
    ∧ (∀ r' ∈ dedupe_rows_by_id rows, ∀ i, r'.id = some i →
        rows.find? (fun r => r.id == some i) = some r')
    ∧ (∀ r ∈ rows, ∀ i, r.id = some i →
        ∃ r' ∈ dedupe_rows_by_id rows, r'.id = some i) := by
  refine ⟨dedupeGo_sublist [] rows, ?_, dedupeGo_id_nodup [] rows, ?_, ?_⟩
  · intro r hr
    obtain ⟨i, hi, -⟩ := id_of_mem_dedupeGo [] rows r hr
    rw [hi]
    exact Option.some_ne_none i
  · intro r' hr' i hid
    exact dedupeGo_first_occurrence [] rows r' i hr' hid
  · intro r hr i hid
    exact dedupeGo_covers [] rows r i hr hid (List.not_mem_nil i)

/-- Witness for C10 on a concrete row list with a duplicate id and a
null-id row. -/
theorem dedupe_rows_by_id_spec_witness :
    (dedupe_rows_by_id
        [⟨some "a", some "first", none, none, none, none, none, none, none,
          none, none, none⟩,
         ⟨none, some "nullrow", none, none, none, none, none, none, none,
          none, none, none⟩,
         ⟨some "a", some "second", none, none, none, none, none, none, none,
          none, none, none⟩]).map SRow.name = [some "first"]
    ∧ [⟨some "a", some "first", none, none, none, none, none, none, none,
          none, none, none⟩,
       (⟨none, some "nullrow", none, none, none, none, none, none, none,
          none, none, none⟩ : SRow),
       ⟨some "a", some "second", none, none, none, none, none, none, none,
          none, none, none⟩].find?
        (fun r => r.id == some "a") =
        some ⟨some "a", some "first", none, none, none, none, none, none,
          none, none, none, none⟩ := by
  constructor
  · decide
  · exact (dedupe_rows_by_id_spec _).2.2.2.1 _ (by decide) "a" (by decide)

/-! ### Corridor search selection -/

theorem parse_ignores_category (r : SRow) (c : Option String) :
    parse_coord_from_row { r with category := c } = parse_coord_from_row r :=
  rfl

theorem scoreOf_eq_zero_or_one (tokens : List String) (name : Option String)
    (best_cat : String) :
    scoreOf tokens name best_cat = 0 ∨ scoreOf tokens name best_cat = 1 := by
  unfold scoreOf
  cases h1 : tokens.isEmpty <;>
    cases h2 : (tokens.any fun tok =>
      tok == strLower best_cat || strContains (strLower (name.getD "")) tok) <;>
    simp [h1, h2]

theorem mem_candidatesOf {distF fracF : ℚ × ℚ → ℚ} {radius : Option ℚ}
    {tokens : List String} {rows : List SRow} {c : Cand}
    (hc : c ∈ candidatesOf distF fracF radius tokens rows) :
    ∃ r ∈ rows, ∃ coord, parse_coord_from_row r = some coord ∧
      distF coord ≤ effRadius radius ∧
      0 < scoreOf tokens r.name (get_best_category r) ∧
      c = ⟨scoreOf tokens r.name (get_best_category r), fracF coord,
        distF coord, { r with category := some (get_best_category r) }⟩ := by
  obtain ⟨r, hr, hfr⟩ := List.mem_filterMap.mp hc
  rcases hp : parse_coord_from_row r with _ | coord
  · simp [hp] at hfr
  · simp only [hp] at hfr
    by_cases hd : distF coord ≤ effRadius radius
    · by_cases hs : 0 < scoreOf tokens r.name (get_best_category r)
      · rw [if_pos hd, if_pos hs] at hfr
        exact ⟨r, hr, coord, hp, hd, hs, (Option.some_inj.mp hfr).symm⟩
      · rw [if_pos hd, if_neg hs] at hfr
        cases hfr
    · rw [if_neg hd] at hfr
      cases hfr

theorem mem_candidatesOf_of {distF fracF : ℚ × ℚ → ℚ} {radius : Option ℚ}
    {tokens : List String} {rows : List SRow} {r : SRow} {coord : ℚ × ℚ}
    (hr : r ∈ rows) (hp : parse_coord_from_row r = some coord)
    (hd : distF coord ≤ effRadius radius)
    (hs : 0 < scoreOf tokens r.name (get_best_category r)) :
    (⟨scoreOf tokens r.name (get_best_category r), fracF coord, distF coord,
      { r with category := some (get_best_category r) }⟩ : Cand)
      ∈ candidatesOf distF fracF radius tokens rows := by
  refine List.mem_filterMap.mpr ⟨r, hr, ?_⟩
  simp [hp, hd, hs]

theorem pairwise_rowKeyLe_pipeline (distF fracF : ℚ × ℚ → ℚ)
    (radius : Option ℚ) (tokens : List String) (rows : List SRow) :
    List.Pairwise (rowKeyLe fracF)
      (dedupe_rows_by_id ((List.insertionSort candLe
        (candidatesOf distF fracF radius tokens rows)).map
          (fun c => c.row))) := by
  have hsort : List.Pairwise candLe
      (List.insertionSort candLe (candidatesOf distF fracF radius tokens rows)) :=
    List.sorted_insertionSort candLe _
  have hmap : List.Pairwise (rowKeyLe fracF)
      ((List.insertionSort candLe
        (candidatesOf distF fracF radius tokens rows)).map (fun c => c.row)) := by
    rw [List.pairwise_map]
    refine List.Pairwise.imp_of_mem ?_ hsort
    intro c₁ c₂ h1 h2 hle
    have hm1 : c₁ ∈ candidatesOf distF fracF radius tokens rows :=
      (List.perm_insertionSort candLe _).mem_iff.mp h1
    have hm2 : c₂ ∈ candidatesOf distF fracF radius tokens rows :=
      (List.perm_insertionSort candLe _).mem_iff.mp h2
    obtain ⟨r₁, -, coord₁, hp₁, -, -, rfl⟩ := mem_candidatesOf hm1
    obtain ⟨r₂, -, coord₂, hp₂, -, -, rfl⟩ := mem_candidatesOf hm2
    simpa [rowKeyLe, candLe, candKey, parse_ignores_category, hp₁, hp₂]
      using hle
  exact hmap.sublist (dedupeGo_sublist [] _)

theorem mem_pipeline_row (distF fracF : ℚ × ℚ → ℚ)
    (radius : Option ℚ) (tokens : List String) (rows : List SRow) (r : SRow)
    (hr : r ∈ dedupe_rows_by_id ((List.insertionSort candLe
        (candidatesOf distF fracF radius tokens rows)).map (fun c => c.row))) :
    ∃ c ∈ candidatesOf distF fracF radius tokens rows, r = c.row := by
  have hmem : r ∈ (List.insertionSort candLe
      (candidatesOf distF fracF radius tokens rows)).map (fun c => c.row) :=
    (dedupeGo_sublist [] _).subset hr
  obtain ⟨c, hcs, hcr⟩ := List.mem_map.mp hmem
  exact ⟨c, (List.perm_insertionSort candLe _).mem_iff.mp hcs, hcr.symm⟩

/-- C1 (amended): when the effective result limit is at least the number
of candidates, `search_between` returns exactly the id-deduplicated
candidate rows; the rows are ordered by ascending (category, route
fraction) — not by route fraction alone; each surviving id appears once
and null-id rows are dropped; every candidate carries score 1 (score 0
rows were already excluded from the candidate list, so among candidates
the score cannot affect inclusion). -/
theorem search_between_high_limit
    (distF fracF : ℚ × ℚ → ℚ) (rows : List SRow)
    (trashed categories : List String) (radius : Option ℚ) (limit : Option Int)
    (hlim : ((candidatesOf distF fracF radius (tokensOf categories)
        (trashedFilter trashed rows)).length : Int) ≤ effLimit limit) :
    search_between_rows distF fracF rows trashed categories radius limit =
      dedupe_rows_by_id ((List.insertionSort candLe
        (candidatesOf distF fracF radius (tokensOf categories)
          (trashedFilter trashed rows))).map (fun c => c.row))
    ∧ List.Pairwise (rowKeyLe fracF)
        (search_between_rows distF fracF rows trashed categories radius limit)
    ∧ ((search_between_rows distF fracF rows trashed categories radius
        limit).map SRow.id).Nodup
    ∧ (∀ c ∈ candidatesOf distF fracF radius (tokensOf categories)
          (trashedFilter trashed rows),
        c.score = 1 ∧ (c.row.id ≠ none →
          ∃ r ∈ search_between_rows distF fracF rows trashed categories radius
            limit, r.id = c.row.id))
    ∧ (∀ r ∈ search_between_rows distF fracF rows trashed categories radius
          limit,
        ∃ c ∈ candidatesOf distF fracF radius (tokensOf categories)
          (trashedFilter trashed rows), r = c.row) := by
  have hmain : search_between_rows distF fracF rows trashed categories radius
      limit = dedupe_rows_by_id ((List.insertionSort candLe
        (candidatesOf distF fracF radius (tokensOf categories)
          (trashedFilter trashed rows))).map (fun c => c.row)) := by
    simp only [search_between_rows]
    by_cases h0 : effLimit limit ≤ 0
    · have hlen0 : (candidatesOf distF fracF radius (tokensOf categories)
          (trashedFilter trashed rows)).length = 0 := by omega
      have hnil : candidatesOf distF fracF radius (tokensOf categories)
          (trashedFilter trashed rows) = [] := List.length_eq_zero.mp hlen0
      rw [if_pos h0, hnil]
      simp [dedupe_rows_by_id, dedupeGo, List.insertionSort]
    · rw [if_neg h0]
      have hsub : (dedupe_rows_by_id ((List.insertionSort candLe
          (candidatesOf distF fracF radius (tokensOf categories)
            (trashedFilter trashed rows))).map (fun c => c.row))).length ≤
          ((List.insertionSort candLe (candidatesOf distF fracF radius
            (tokensOf categories) (trashedFilter trashed rows))).map
              (fun c => c.row)).length :=
        (dedupeGo_sublist [] _).length_le
      rw [List.length_map] at hsub
      have hperm := (List.perm_insertionSort candLe (candidatesOf distF fracF
        radius (tokensOf categories) (trashedFilter trashed rows))).length_eq
      rw [hperm] at hsub
      apply List.take_of_length_le
      omega
  refine ⟨hmain, ?_, ?_, ?_, ?_⟩
  · rw [hmain]
    exact pairwise_rowKeyLe_pipeline distF fracF radius (tokensOf categories)
      (trashedFilter trashed rows)
  · rw [hmain]
    exact dedupeGo_id_nodup [] _
  · intro c hc
    constructor
    · obtain ⟨r, -, coord, -, -, hs, rfl⟩ := mem_candidatesOf hc
      rcases scoreOf_eq_zero_or_one (tokensOf categories) r.name
        (get_best_category r) with h | h
      · omega
      · simpa using h
    · intro hne
      rw [hmain]
      obtain ⟨i, hi⟩ := Option.ne_none_iff_exists'.mp hne
      have hrowmem : c.row ∈ (List.insertionSort candLe
          (candidatesOf distF fracF radius (tokensOf categories)
            (trashedFilter trashed rows))).map (fun c => c.row) :=
        List.mem_map_of_mem _
          ((List.perm_insertionSort candLe _).mem_iff.mpr hc)
      obtain ⟨r', hr', hid'⟩ :=
        dedupeGo_covers [] _ c.row i hrowmem hi (List.not_mem_nil i)
      exact ⟨r', hr', by rw [hid', hi]⟩
  · intro r hrout
    rw [hmain] at hrout
    exact mem_pipeline_row distF fracF radius _ _ r hrout

/-- Witness for C1 at a concrete two-candidate input. -/
theorem search_between_high_limit_witness :
    ((candidatesOf distZero fracFst none (tokensOf [])
        (trashedFilter [] [rowCatB, rowCatA])).length : Int) ≤ effLimit none
    ∧ search_between_rows distZero fracFst [rowCatB, rowCatA] [] [] none
        none =
      dedupe_rows_by_id ((List.insertionSort candLe
        (candidatesOf distZero fracFst none (tokensOf [])
          (trashedFilter [] [rowCatB, rowCatA]))).map (fun c => c.row)) :=
  ⟨by decide, (search_between_high_limit distZero fracFst [rowCatB, rowCatA]
    [] [] none none (by decide)).1⟩

/-- Counterexample to C1 as stated: two corridor candidates with
categories `B` (fraction 0) and `A` (fraction 1), limit 10 ≥ 2; the
response lists the fraction-1 row first because the sort key is
(category, t), so the rows are not in ascending route-fraction order. -/
theorem search_between_high_limit_counterexample :
    ((candidatesOf distZero fracFst none (tokensOf [])
        (trashedFilter [] [rowCatB, rowCatA])).length : Int) ≤ effLimit none
    ∧ (search_between_rows distZero fracFst [rowCatB, rowCatA] [] [] none
        none).map (fun r => fracFst ((parse_coord_from_row r).getD (0, 0)))
      = [1, 0]
    ∧ ¬ List.Pairwise (fun a b : ℚ => a ≤ b)
        ((search_between_rows distZero fracFst [rowCatB, rowCatA] [] [] none
          none).map
            (fun r => fracFst ((parse_coord_from_row r).getD (0, 0)))) :=
  ⟨by decide, by decide, by decide⟩

/-- C4 (amended): with limit 1 and a non-empty id-deduplicated candidate
list, `search_between` returns exactly the first row in ascending
(category, route fraction) order among the deduplicated candidates — not
the one whose fraction is closest to one half. -/
theorem search_between_limit_one
    (distF fracF : ℚ × ℚ → ℚ) (rows : List SRow)
    (trashed categories : List String) (radius : Option ℚ)
    (hne : dedupe_rows_by_id ((List.insertionSort candLe
        (candidatesOf distF fracF radius (tokensOf categories)
          (trashedFilter trashed rows))).map (fun c => c.row)) ≠ []) :
    ∃ r₀, search_between_rows distF fracF rows trashed categories radius
        (some 1) = [r₀]
      ∧ (∃ c ∈ candidatesOf distF fracF radius (tokensOf categories)
          (trashedFilter trashed rows), r₀ = c.row)
      ∧ ∀ r ∈ dedupe_rows_by_id ((List.insertionSort candLe
          (candidatesOf distF fracF radius (tokensOf categories)
            (trashedFilter trashed rows))).map (fun c => c.row)),
          rowKeyLe fracF r₀ r := by
  obtain ⟨r₀, rest, hcons⟩ : ∃ r₀ rest,
      dedupe_rows_by_id ((List.insertionSort candLe
        (candidatesOf distF fracF radius (tokensOf categories)
          (trashedFilter trashed rows))).map (fun c => c.row)) = r₀ :: rest := by
    cases hdd : dedupe_rows_by_id ((List.insertionSort candLe
        (candidatesOf distF fracF radius (tokensOf categories)
          (trashedFilter trashed rows))).map (fun c => c.row)) with
    | nil => exact absurd hdd hne
    | cons a l => exact ⟨a, l, rfl⟩
  have hpw := pairwise_rowKeyLe_pipeline distF fracF radius
    (tokensOf categories) (trashedFilter trashed rows)
  rw [hcons] at hpw
  rw [List.pairwise_cons] at hpw
  refine ⟨r₀, ?_, ?_, ?_⟩
  · simp only [search_between_rows]
    rw [if_neg (by decide : ¬ effLimit (some 1) ≤ 0), hcons]
    rfl
  · exact mem_pipeline_row distF fracF radius _ _ r₀
      (by rw [hcons]; exact List.mem_cons_self _ _)
  · intro r hr
    rw [hcons] at hr
    rcases List.mem_cons.mp hr with rfl | hr₂
    · exact Or.inr ⟨rfl, le_refl _⟩
    · exact hpw.1 r hr₂

/-- Witness for C4 at a concrete two-candidate input. -/
theorem search_between_limit_one_witness :
    dedupe_rows_by_id ((List.insertionSort candLe
        (candidatesOf distZero fracFst none (tokensOf [])
          (trashedFilter [] [rowMus1, rowMus2]))).map (fun c => c.row)) ≠ []
    ∧ ∃ r₀, search_between_rows distZero fracFst [rowMus1, rowMus2] [] []
        none (some 1) = [r₀]
      ∧ (∃ c ∈ candidatesOf distZero fracFst none (tokensOf [])
          (trashedFilter [] [rowMus1, rowMus2]), r₀ = c.row)
      ∧ ∀ r ∈ dedupe_rows_by_id ((List.insertionSort candLe
          (candidatesOf distZero fracFst none (tokensOf [])
            (trashedFilter [] [rowMus1, rowMus2]))).map (fun c => c.row)),
          rowKeyLe fracFst r₀ r :=
  ⟨by decide, search_between_limit_one distZero fracFst [rowMus1, rowMus2]
    [] [] none (by decide)⟩

/-- Counterexample to C4 as stated: two same-category candidates with
score 1 at fractions 0 and one half; the claim picks the one-half
candidate (`m2`, closest to 0.5), but the code returns `m1`, the first
in ascending (category, t) order. -/
theorem search_between_limit_one_counterexample :
    (search_between_rows distZero fracFst [rowMus1, rowMus2] [] [] none
        (some 1)).map SRow.id = [some "m1"]
    ∧ (candidatesOf distZero fracFst none (tokensOf [])
        (trashedFilter [] [rowMus1, rowMus2])).map
          (fun c => (c.row.id, c.t, c.score)) =
        [(some "m1", 0, 1), (some "m2", halfQ, 1)]
    ∧ halfQ = 1 / 2
    ∧ |halfQ - halfQ| < |(0 : ℚ) - halfQ| := by
  refine ⟨by decide, by decide, ?_, ?_⟩
  · rw [← Rat.num_div_den halfQ]
    norm_num [halfQ]
  · have h0 : (0 : ℚ) < halfQ := by decide
    rw [sub_self, abs_zero, zero_sub, abs_neg, abs_of_pos h0]
    exact h0

/-! ### Route sequencing orchestration -/

/-- C8: a cached dict payload carrying the `prepared_request`
placeholder is ignored whenever the deduplicated coordinate count
exceeds the waypoint cap, and the request then takes the local
heuristic path. -/
theorem placeholder_cache_ignored (c : CachedPayload) (n m : ℕ)
    (h1 : c.isDict = true) (h2 : c.hasPreparedRequest = true)
    (h3 : m < n) :
    optimize_route_path (some c) n m = RoutePath.localTsp := by
  unfold optimize_route_path route_path_after_cache
  simp [h1, h2, h3]

/-- Witness for C8 with 30 coordinates against the default cap of 23. -/
theorem placeholder_cache_ignored_witness :
    (23 : ℕ) < 30
    ∧ optimize_route_path (some ⟨true, true⟩) 30 23 = RoutePath.localTsp :=
  ⟨by decide,
    placeholder_cache_ignored ⟨true, true⟩ 30 23 rfl rfl (by decide)⟩

/-- C9: a sequencing request resolving to zero usable coordinates fails
with a client-facing 4xx error (404 when no id resolves, 400 when no
resolved attraction has a coordinate), and a success always carries the
non-empty deduplicated coordinate list. -/
theorem optimize_zero_usable_coords_fails (ids : List String)
    (rows : List SRow) :
    (collectCoords [] (resolveAttractions ids rows) = [] →
      ∃ e, optimize_resolve ids rows = Except.error e ∧ 400 ≤ e ∧ e < 500)
    ∧ (∀ cs, optimize_resolve ids rows = Except.ok cs →
        cs ≠ [] ∧ cs = collectCoords [] (resolveAttractions ids rows)) := by
  constructor
  · intro hempty
    unfold optimize_resolve
    by_cases ha : (resolveAttractions ids rows).isEmpty
    · exact ⟨404, by rw [if_pos ha], by omega, by omega⟩
    · refine ⟨400, ?_, by omega, by omega⟩
      rw [if_neg ha, if_pos (by simp [hempty])]
  · intro cs hok
    unfold optimize_resolve at hok
    by_cases ha : (resolveAttractions ids rows).isEmpty
    · rw [if_pos ha] at hok
      cases hok
    · rw [if_neg ha] at hok
      by_cases hc : (collectCoords [] (resolveAttractions ids rows)).isEmpty
      · rw [if_pos hc] at hok
        cases hok
      · rw [if_neg hc] at hok
        cases hok
        exact ⟨by simpa using hc, rfl⟩

/-- Witness for C9: one row matching the requested id but without a
parseable coordinate yields the 400 error. -/
theorem optimize_zero_usable_coords_fails_witness :
    collectCoords [] (resolveAttractions ["a"]
      [⟨some "a", some "noCoords", none, none, none, none, none, none,
        none, none, none, none⟩]) = []
    ∧ ∃ e, optimize_resolve ["a"]
        [⟨some "a", some "noCoords", none, none, none, none, none, none,
          none, none, none, none⟩] = Except.error e ∧ 400 ≤ e ∧ e < 500 :=
  ⟨by decide, (optimize_zero_usable_coords_fails ["a"] _).1 (by decide)⟩

/-! ### Corridor geometry -/

theorem vlen2_eq_zero_iff (A B : ℚ × ℚ) :
    seg_vlen2 A B = 0 ↔ B.1 = A.1 ∧ B.2 = A.2 := by
  unfold seg_vlen2
  constructor
  · intro h
    have h1 : (B.1 - A.1) * (B.1 - A.1) = 0 := by
      nlinarith [mul_self_nonneg (B.1 - A.1), mul_self_nonneg (B.2 - A.2)]
    have h2 : (B.2 - A.2) * (B.2 - A.2) = 0 := by
      nlinarith [mul_self_nonneg (B.1 - A.1), mul_self_nonneg (B.2 - A.2)]
    have h1' := mul_self_eq_zero.mp h1
    have h2' := mul_self_eq_zero.mp h2
    constructor <;> linarith
  · rintro ⟨h1, h2⟩
    rw [h1, h2]
    ring

theorem seg_vlen2_pos (A B : ℚ × ℚ) (hv : seg_vlen2 A B ≠ 0) :
    0 < seg_vlen2 A B := by
  rcases lt_or_eq_of_le (by
    unfold seg_vlen2
    exact add_nonneg (mul_self_nonneg _) (mul_self_nonneg _) :
    (0 : ℚ) ≤ seg_vlen2 A B) with h | h
  · exact h
  · exact absurd h.symm hv

theorem seg_wv_eq (P A B : ℚ × ℚ) (hv : seg_vlen2 A B ≠ 0) :
    (P.1 - A.1) * (B.1 - A.1) + (P.2 - A.2) * (B.2 - A.2) =
      seg_t P A B * seg_vlen2 A B := by
  unfold seg_t
  rw [div_mul_cancel₀ _ hv]

theorem seg_sq_degenerate (P A B : ℚ × ℚ) (h : A = B) :
    seg_sq P A B = planeDistSq P A := by
  subst h
  simp [seg_sq, seg_vlen2]

theorem seg_sq_on_segment (P A B : ℚ × ℚ) (s : ℚ) (hs0 : 0 ≤ s)
    (hs1 : s ≤ 1)
    (hp : P = (A.1 + s * (B.1 - A.1), A.2 + s * (B.2 - A.2))) :
    seg_sq P A B = 0 := by
  subst hp
  unfold seg_sq
  by_cases hv : seg_vlen2 A B = 0
  · rw [if_pos hv]
    obtain ⟨h1, h2⟩ := (vlen2_eq_zero_iff A B).mp hv
    simp [planeDistSq, h1, h2]
  · rw [if_neg hv]
    have ht : seg_t (A.1 + s * (B.1 - A.1), A.2 + s * (B.2 - A.2)) A B = s := by
      unfold seg_t
      rw [div_eq_iff hv]
      unfold seg_vlen2
      ring
    rw [ht, min_eq_right hs1, max_eq_right hs0]
    simp [planeDistSq]

theorem seg_sq_t_lt_zero (P A B : ℚ × ℚ) (hv : seg_vlen2 A B ≠ 0)
    (ht : seg_t P A B < 0) :
    seg_sq P A B = planeDistSq P A
    ∧ planeDistSq P A ≤ planeDistSq P B := by
  constructor
  · unfold seg_sq
    rw [if_neg hv, min_eq_right (by linarith : seg_t P A B ≤ 1),
      max_eq_left (le_of_lt ht)]
    simp [planeDistSq]
  · have hvpos := seg_vlen2_pos A B hv
    have hwv := seg_wv_eq P A B hv
    have hfac : 0 < seg_vlen2 A B * (1 - 2 * seg_t P A B) :=
      mul_pos hvpos (by linarith)
    unfold planeDistSq
    unfold seg_vlen2 at hwv hfac
    nlinarith [hwv, hfac]

theorem seg_sq_t_gt_one (P A B : ℚ × ℚ) (hv : seg_vlen2 A B ≠ 0)
    (ht : 1 < seg_t P A B) :
    seg_sq P A B = planeDistSq P B
    ∧ planeDistSq P B ≤ planeDistSq P A := by
  constructor
  · unfold seg_sq
    rw [if_neg hv, min_eq_left (le_of_lt ht), max_eq_right zero_le_one]
    have hB : (A.1 + 1 * (B.1 - A.1), A.2 + 1 * (B.2 - A.2)) = B := by
      rw [Prod.mk.injEq]
      constructor <;> ring
    rw [hB]
  · have hvpos := seg_vlen2_pos A B hv
    have hwv := seg_wv_eq P A B hv
    have hfac : 0 < seg_vlen2 A B * (2 * seg_t P A B - 1) :=
      mul_pos hvpos (by linarith)
    unfold planeDistSq
    unfold seg_vlen2 at hwv hfac
    nlinarith [hwv, hfac]

theorem seg_sq_min (P A B : ℚ × ℚ) (s : ℚ) (hs0 : 0 ≤ s) (hs1 : s ≤ 1) :
    seg_sq P A B ≤
      planeDistSq P (A.1 + s * (B.1 - A.1), A.2 + s * (B.2 - A.2)) := by
  unfold seg_sq
  by_cases hv : seg_vlen2 A B = 0
  · rw [if_pos hv]
    obtain ⟨h1, h2⟩ := (vlen2_eq_zero_iff A B).mp hv
    simp [planeDistSq, h1, h2]
  · rw [if_neg hv]
    have hvpos := seg_vlen2_pos A B hv
    have hwv := seg_wv_eq P A B hv
    by_cases hlt : seg_t P A B < 0
    · rw [min_eq_right (by linarith : seg_t P A B ≤ 1),
        max_eq_left (le_of_lt hlt)]
      have hfac : 0 ≤ seg_vlen2 A B * (s * (s - 2 * seg_t P A B)) :=
        mul_nonneg hvpos.le (mul_nonneg hs0 (by linarith))
      unfold planeDistSq
      dsimp only
      unfold seg_vlen2 at hwv hfac
      nlinarith [hwv, hfac]
    · by_cases hgt : 1 < seg_t P A B
      · rw [min_eq_left (le_of_lt hgt), max_eq_right zero_le_one]
        have hfac : 0 ≤ seg_vlen2 A B * ((1 - s) * (2 * seg_t P A B - 1 - s)) :=
          mul_nonneg hvpos.le (mul_nonneg (by linarith) (by linarith))
        unfold planeDistSq
        dsimp only
        unfold seg_vlen2 at hwv hfac
        nlinarith [hwv, hfac]
      · rw [min_eq_right (by linarith : seg_t P A B ≤ 1),
          max_eq_right (by linarith : (0 : ℚ) ≤ seg_t P A B)]
        have hfac : 0 ≤ seg_vlen2 A B * ((s - seg_t P A B) * (s - seg_t P A B)) :=
          mul_nonneg hvpos.le (mul_self_nonneg _)
        unfold planeDistSq
        dsimp only
        unfold seg_vlen2 at hwv hfac
        nlinarith [hwv, hfac]

/-- C5: the projection parameter is clamped to [0,1], so the returned
distance is the plane distance to the nearest point on the segment:
it equals the distance to `a` when the projected images coincide
(degenerate segment), vanishes when `p` projects onto the segment
itself, equals the distance to the nearer endpoint when the unclamped
parameter falls below 0 or above 1, and is bounded by the distance to
every point of the segment. -/
theorem point_segment_distance_km_spec (toXY : ℚ × ℚ → ℚ × ℚ)
    (p a b : ℚ × ℚ) :
    (toXY a = toXY b →
      point_segment_distance_km toXY p a b = planeDist (toXY p) (toXY a))
    ∧ ((∃ s, 0 ≤ s ∧ s ≤ 1 ∧ toXY p =
        ((toXY a).1 + s * ((toXY b).1 - (toXY a).1),
         (toXY a).2 + s * ((toXY b).2 - (toXY a).2))) →
      point_segment_distance_km toXY p a b = 0)
    ∧ (seg_vlen2 (toXY a) (toXY b) ≠ 0 →
        seg_t (toXY p) (toXY a) (toXY b) < 0 →
      point_segment_distance_km toXY p a b = planeDist (toXY p) (toXY a)
      ∧ planeDistSq (toXY p) (toXY a) ≤ planeDistSq (toXY p) (toXY b))
    ∧ (seg_vlen2 (toXY a) (toXY b) ≠ 0 →
        1 < seg_t (toXY p) (toXY a) (toXY b) →
      point_segment_distance_km toXY p a b = planeDist (toXY p) (toXY b)
      ∧ planeDistSq (toXY p) (toXY b) ≤ planeDistSq (toXY p) (toXY a))
    ∧ (∀ s, 0 ≤ s → s ≤ 1 →
      point_segment_distance_km toXY p a b ≤
        planeDist (toXY p)
          ((toXY a).1 + s * ((toXY b).1 - (toXY a).1),
           (toXY a).2 + s * ((toXY b).2 - (toXY a).2))) := by
  refine ⟨?_, ?_, ?_, ?_, ?_⟩
  · intro h
    unfold point_segment_distance_km planeDist
    rw [seg_sq_degenerate _ _ _ h]
  · rintro ⟨s, hs0, hs1, hp⟩
    unfold point_segment_distance_km
    rw [seg_sq_on_segment _ _ _ s hs0 hs1 hp]
    simp
  · intro hv ht
    obtain ⟨heq, hle⟩ := seg_sq_t_lt_zero _ _ _ hv ht
    exact ⟨by unfold point_segment_distance_km planeDist; rw [heq], hle⟩
  · intro hv ht
    obtain ⟨heq, hle⟩ := seg_sq_t_gt_one _ _ _ hv ht
    exact ⟨by unfold point_segment_distance_km planeDist; rw [heq], hle⟩
  · intro s hs0 hs1
    unfold point_segment_distance_km planeDist
    apply Real.sqrt_le_sqrt
    exact_mod_cast seg_sq_min _ _ _ s hs0 hs1

/-- Witness for C5 on a degenerate segment at a concrete point. -/
theorem point_segment_distance_km_spec_witness :
    (id ((0 : ℚ), (0 : ℚ)) = id (0, 0))
    ∧ point_segment_distance_km id (3, 4) (0, 0) (0, 0) =
        planeDist (id (3, 4)) (id (0, 0)) :=
  ⟨rfl, (point_segment_distance_km_spec id (3, 4) (0, 0) (0, 0)).1 rfl⟩

/-! ### Nearest-neighbour construction -/

theorem pickBest_some_of_some (f : ℕ → ℚ) (l : List ℕ) (b : ℕ) :
    ∃ r, pickBest f (some b) l = some r := by
  induction l generalizing b with
  | nil => exact ⟨b, rfl⟩
  | cons i rest ih =>
    by_cases h : f i < f b
    · simpa [pickBest, h] using ih i
    · simpa [pickBest, h] using ih b

theorem pickBest_ne_none (f : ℕ → ℚ) (l : List ℕ) (hne : l ≠ []) :
    ∃ r, pickBest f none l = some r := by
  cases l with
  | nil => cases hne rfl
  | cons i rest => exact pickBest_some_of_some f rest i

theorem pickBest_mem (f : ℕ → ℚ) (l : List ℕ) :
    ∀ best r, pickBest f (some best) l = some r → r ∈ l ∨ r = best := by
  induction l with
  | nil =>
    intro best r h
    exact Or.inr (Option.some_inj.mp h).symm
  | cons i rest ih =>
    intro best r h
    by_cases hc : f i < f best
    · rcases ih i r (by simpa [pickBest, hc] using h) with h' | h'
      · exact Or.inl (List.mem_cons_of_mem i h')
      · exact Or.inl (h' ▸ List.mem_cons_self i rest)
    · rcases ih best r (by simpa [pickBest, hc] using h) with h' | h'
      · exact Or.inl (List.mem_cons_of_mem i h')
      · exact Or.inr h'

theorem pickBest_none_mem (f : ℕ → ℚ) (l : List ℕ) (r : ℕ)
    (h : pickBest f none l = some r) : r ∈ l := by
  cases l with
  | nil => cases h
  | cons i rest =>
    rcases pickBest_mem f rest i r h with h' | h'
    · exact List.mem_cons_of_mem i h'
    · exact h' ▸ List.mem_cons_self i rest

theorem pickBest_le (f : ℕ → ℚ) (l : List ℕ) :
    ∀ best r, pickBest f (some best) l = some r →
      f r ≤ f best ∧ ∀ x ∈ l, f r ≤ f x := by
  induction l with
  | nil =>
    intro best r h
    obtain rfl : best = r := Option.some_inj.mp h
    exact ⟨le_refl _, by simp⟩
  | cons i rest ih =>
    intro best r h
    by_cases hc : f i < f best
    · have h' := ih i r (by simpa [pickBest, hc] using h)
      refine ⟨le_trans h'.1 (le_of_lt hc), ?_⟩
      intro x hx
      rcases List.mem_cons.mp hx with rfl | hx₂
      · exact h'.1
      · exact h'.2 x hx₂
    · have h' := ih best r (by simpa [pickBest, hc] using h)
      push_neg at hc
      refine ⟨h'.1, ?_⟩
      intro x hx
      rcases List.mem_cons.mp hx with rfl | hx₂
      · exact le_trans h'.1 hc
      · exact h'.2 x hx₂

theorem pickBest_none_le (f : ℕ → ℚ) (l : List ℕ) (r : ℕ)
    (h : pickBest f none l = some r) : ∀ x ∈ l, f r ≤ f x := by
  cases l with
  | nil => cases h
  | cons i rest =>
    have h' := pickBest_le f rest i r h
    intro x hx
    rcases List.mem_cons.mp hx with rfl | hx₂
    · exact h'.1
    · exact h'.2 x hx₂

theorem nnLoop_append (d : ℕ → ℕ → ℚ) (n : ℕ) :
    ∀ (fuel last : ℕ) (order : List ℕ),
      ∃ suffix, nnLoop d n fuel last order = order ++ suffix := by
  intro fuel
  induction fuel with
  | zero =>
    intro last order
    exact ⟨[], by simp [nnLoop]⟩
  | succ m ih =>
    intro last order
    rcases hp : pickBest (d last) none
        ((List.range n).filter (fun i => decide (i ∉ order))) with _ | b
    · refine ⟨[], ?_⟩
      simp only [nnLoop, hp]
      rw [List.append_nil]
    · obtain ⟨s, hs⟩ := ih b (order ++ [b])
      refine ⟨b :: s, ?_⟩
      simp only [nnLoop, hp]
      rw [hs, List.append_assoc]
      rfl

theorem nnLoop_perm (d : ℕ → ℕ → ℚ) (n : ℕ) :
    ∀ (fuel last : ℕ) (order : List ℕ),
      order.Nodup → (∀ x ∈ order, x < n) → order.length + fuel = n →
      (nnLoop d n fuel last order).Nodup
      ∧ (∀ x ∈ nnLoop d n fuel last order, x < n)
      ∧ (nnLoop d n fuel last order).length = n := by
  intro fuel
  induction fuel with
  | zero =>
    intro last order h1 h2 h3
    simp only [nnLoop]
    exact ⟨h1, h2, by omega⟩
  | succ m ih =>
    intro last order h1 h2 h3
    have hlen : order.length < n := by omega
    have hex : ∃ j, j < n ∧ j ∉ order := by
      by_contra hall
      push_neg at hall
      have hsub : (List.range n) ⊆ order := by
        intro j hj
        exact hall j (List.mem_range.mp hj)
      have hle := (List.Nodup.subperm (List.nodup_range n) hsub).length_le
      rw [List.length_range] at hle
      omega
    obtain ⟨j, hj, hjo⟩ := hex
    have hfil : j ∈ (List.range n).filter (fun i => decide (i ∉ order)) := by
      rw [List.mem_filter]
      exact ⟨List.mem_range.mpr hj, by simpa using hjo⟩
    obtain ⟨b, hb⟩ := pickBest_ne_none (d last) _ (List.ne_nil_of_mem hfil)
    have hbmem := pickBest_none_mem (d last) _ b hb
    rw [List.mem_filter] at hbmem
    have hbn : b < n := List.mem_range.mp hbmem.1
    have hbo : b ∉ order := by simpa using hbmem.2
    have h1' : (order ++ [b]).Nodup := by
      simp [List.nodup_append, h1, hbo]
    have h2' : ∀ x ∈ order ++ [b], x < n := by
      intro x hx
      rcases List.mem_append.mp hx with hx | hx
      · exact h2 x hx
      · rw [List.mem_singleton] at hx
        subst hx
        exact hbn
    have h3' : (order ++ [b]).length + m = n := by
      rw [List.length_append, List.length_singleton]
      omega
    have := ih b (order ++ [b]) h1' h2' h3'
    simpa only [nnLoop, hb] using this

theorem local_greedy_tsp_perm (d : ℕ → ℕ → ℚ) (n : ℕ) :
    (local_greedy_tsp d n).Perm (List.range n) := by
  by_cases h : n = 0
  · subst h
    simp [local_greedy_tsp]
  · unfold local_greedy_tsp
    rw [if_neg h]
    obtain ⟨hnd, hmem, hlen⟩ := nnLoop_perm d n (n - 1) 0 [0]
      (by simp) (by
        intro x hx
        rw [List.mem_singleton] at hx
        subst hx
        omega) (by
        rw [List.length_singleton]
        omega)
    have hsub : nnLoop d n (n - 1) 0 [0] ⊆ List.range n := fun x hx =>
      List.mem_range.mpr (hmem x hx)
    have hsp := List.Nodup.subperm hnd hsub
    obtain ⟨l', hperm, hsl⟩ := hsp
    have : l' = List.range n := by
      apply hsl.eq_of_length
      rw [hperm.length_eq, hlen, List.length_range]
    exact this ▸ hperm.symm

theorem nnLoop_nearest (d : ℕ → ℕ → ℚ) (n : ℕ) :
    ∀ (fuel last : ℕ) (order : List ℕ),
      order ≠ [] →
      order.getD (order.length - 1) 0 = last →
      (∀ k, k + 1 < order.length → ∀ j, j < n → j ∉ order.take (k + 1) →
        d (order.getD k 0) (order.getD (k + 1) 0) ≤ d (order.getD k 0) j) →
      ∀ k, k + 1 < (nnLoop d n fuel last order).length → ∀ j, j < n →
        j ∉ (nnLoop d n fuel last order).take (k + 1) →
        d ((nnLoop d n fuel last order).getD k 0)
          ((nnLoop d n fuel last order).getD (k + 1) 0)
          ≤ d ((nnLoop d n fuel last order).getD k 0) j := by
  intro fuel
  induction fuel with
  | zero =>
    intro last order hne hlast hinv
    simpa only [nnLoop] using hinv
  | succ m ih =>
    intro last order hne hlast hinv
    rcases hp : pickBest (d last) none
        ((List.range n).filter (fun i => decide (i ∉ order))) with _ | b
    · simpa only [nnLoop, hp] using hinv
    · have hmin := pickBest_none_le (d last) _ b hp
      have hne' : order ++ [b] ≠ [] := by simp
      have hlast' : (order ++ [b]).getD ((order ++ [b]).length - 1) 0 = b := by
        rw [List.length_append, List.length_singleton]
        rw [List.getD_append_right _ _ _ _ (by omega)]
        simp
      have hinv' : ∀ k, k + 1 < (order ++ [b]).length → ∀ j, j < n →
          j ∉ (order ++ [b]).take (k + 1) →
          d ((order ++ [b]).getD k 0) ((order ++ [b]).getD (k + 1) 0)
            ≤ d ((order ++ [b]).getD k 0) j := by
        intro k hk j hj hjt
        rw [List.length_append, List.length_singleton] at hk
        by_cases hkl : k + 1 < order.length
        · have e1 : (order ++ [b]).getD k 0 = order.getD k 0 :=
            List.getD_append _ _ _ _ (by omega)
          have e2 : (order ++ [b]).getD (k + 1) 0 = order.getD (k + 1) 0 :=
            List.getD_append _ _ _ _ hkl
          have e3 : (order ++ [b]).take (k + 1) = order.take (k + 1) :=
            List.take_append_of_le_length (by omega)
          rw [e1, e2]
          rw [e3] at hjt
          exact hinv k hkl j hj hjt
        · have hkeq : k + 1 = order.length := by omega
          have hk0 : k < order.length := by omega
          have e1 : (order ++ [b]).getD k 0 = order.getD k 0 :=
            List.getD_append _ _ _ _ hk0
          have e2 : (order ++ [b]).getD (k + 1) 0 = b := by
            rw [hkeq, List.getD_append_right _ _ _ _ (by omega)]
            simp
          have e3 : (order ++ [b]).take (k + 1) = order := by
            rw [hkeq]
            exact List.take_left order [b]
          have e4 : order.getD k 0 = last := by
            rw [← hlast]
            congr 1
            omega
          rw [e1, e2, e4]
          rw [e3] at hjt
          apply hmin
          rw [List.mem_filter]
          exact ⟨List.mem_range.mpr hj, by simpa using hjt⟩
      have := ih b (order ++ [b]) hne' hlast' hinv'
      simpa only [nnLoop, hp] using this

/-- C3: for a non-empty input of `n` coordinates, `local_greedy_tsp`
returns a permutation of the indices `0..n-1`, starting at index 0,
and each successive index is a nearest not-yet-visited point under the
distance oracle; the empty input gives the empty tour. -/
theorem local_greedy_tsp_spec (d : ℕ → ℕ → ℚ) (n : ℕ) :
    (n = 0 → local_greedy_tsp d n = [])
    ∧ (local_greedy_tsp d n).Perm (List.range n)
    ∧ (0 < n → (local_greedy_tsp d n).head? = some 0)
    ∧ (∀ k, k + 1 < (local_greedy_tsp d n).length → ∀ j, j < n →
        j ∉ (local_greedy_tsp d n).take (k + 1) →
        d ((local_greedy_tsp d n).getD k 0)
          ((local_greedy_tsp d n).getD (k + 1) 0)
          ≤ d ((local_greedy_tsp d n).getD k 0) j) := by
  refine ⟨?_, local_greedy_tsp_perm d n, ?_, ?_⟩
  · intro h
    simp [local_greedy_tsp, h]
  · intro h
    unfold local_greedy_tsp
    rw [if_neg (by omega)]
    obtain ⟨s, hs⟩ := nnLoop_append d n (n - 1) 0 [0]
    rw [hs]
    rfl
  · intro k hk j hj hjt
    by_cases h : n = 0
    · rw [h] at hk ⊢
      simp [local_greedy_tsp] at hk
    · have heq : local_greedy_tsp d n = nnLoop d n (n - 1) 0 [0] := by
        unfold local_greedy_tsp
        rw [if_neg h]
      rw [heq] at hk hjt ⊢
      exact nnLoop_nearest d n (n - 1) 0 [0] (by simp) (by simp)
        (by
          intro k' hk' j' hj' hjt'
          rw [List.length_singleton] at hk'
          omega) k hk j hj hjt

/-- Witness for C3 at a concrete three-point configuration. -/
theorem local_greedy_tsp_spec_witness :
    0 < 3 ∧ (local_greedy_tsp dEx 3).head? = some 0 :=
  ⟨by decide, (local_greedy_tsp_spec dEx 3).2.2.1 (by decide)⟩

/-! ### 2-opt improvement -/

theorem tourLen_cons_cons (d : ℕ → ℕ → ℚ) (x y : ℕ) (l : List ℕ) :
    tourLen d (x :: y :: l) = d x y + tourLen d (y :: l) := rfl

theorem tourLen_append_ne (d : ℕ → ℕ → ℚ) :
    ∀ (U V : List ℕ), U ≠ [] → V ≠ [] →
      tourLen d (U ++ V) =
        tourLen d U + d (U.getD (U.length - 1) 0) (V.getD 0 0) + tourLen d V := by
  intro U
  induction U with
  | nil =>
    intro V h hV
    cases h rfl
  | cons u us ih =>
    intro V hU hV
    cases us with
    | nil =>
      cases V with
      | nil => cases hV rfl
      | cons v vs =>
        show tourLen d (u :: v :: vs) = tourLen d [u] + d u v + tourLen d (v :: vs)
        rw [tourLen_cons_cons, show tourLen d [u] = 0 from rfl]
        ring
    | cons u2 us2 =>
      have hih := ih V (by simp) hV
      calc tourLen d ((u :: u2 :: us2) ++ V)
          = d u u2 + tourLen d ((u2 :: us2) ++ V) := rfl
        _ = d u u2 + (tourLen d (u2 :: us2) +
            d ((u2 :: us2).getD ((u2 :: us2).length - 1) 0) (V.getD 0 0) +
            tourLen d V) := by rw [hih]
        _ = tourLen d (u :: u2 :: us2) +
            d ((u :: u2 :: us2).getD ((u :: u2 :: us2).length - 1) 0)
              (V.getD 0 0) + tourLen d V := by
            rw [tourLen_cons_cons]
            have hidx : (u :: u2 :: us2).getD ((u :: u2 :: us2).length - 1) 0 =
                (u2 :: us2).getD ((u2 :: us2).length - 1) 0 := by
              show (u :: u2 :: us2).getD (us2.length + 1) 0 =
                (u2 :: us2).getD us2.length 0
              rw [List.getD_cons_succ]
            rw [hidx]
            ring

theorem tourLen_reverse (d : ℕ → ℕ → ℚ) (hsym : ∀ i j, d i j = d j i) :
    ∀ l : List ℕ, tourLen d l.reverse = tourLen d l := by
  intro l
  induction l with
  | nil => rfl
  | cons x xs ih =>
    cases xs with
    | nil => rfl
    | cons x2 xs2 =>
      rw [List.reverse_cons]
      have h := tourLen_append_ne d ((x2 :: xs2).reverse) [x] (by simp) (by simp)
      rw [h, ih]
      have hlast : ((x2 :: xs2).reverse).getD (((x2 :: xs2).reverse).length - 1) 0
          = x2 := by
        rw [List.length_reverse, List.getD_eq_getElem?_getD,
          List.getElem?_reverse (by simp : (x2 :: xs2).length - 1 < (x2 :: xs2).length)]
        rw [show (x2 :: xs2).length - 1 - ((x2 :: xs2).length - 1) = 0 from by omega]
        simp
      rw [hlast, show (([x] : List ℕ)).getD 0 0 = x from rfl,
        show tourLen d [x] = 0 from rfl, tourLen_cons_cons, hsym x2 x]
      ring

theorem applyMove_tourLen (d : ℕ → ℕ → ℚ) (hsym : ∀ i j, d i j = d j i)
    (o : List ℕ) (a b : ℕ) (hab : a + 2 ≤ b) (hb : b + 1 < o.length) :
    tourLen d (applyMove o a b) = tourLen d o + deltaAt d o a b := by
  have htake : ∀ (l : List ℕ) (n i : ℕ), i < n → (l.take n)[i]? = l[i]? := by
    intro l n i h
    simp [List.getElem?_take, h]
  have hdropE : ∀ (l : List ℕ) (n i : ℕ), (l.drop n)[i]? = l[n + i]? := by
    intro l n i
    simp [List.getElem?_drop]
  simp only [applyMove]
  rw [List.append_assoc]
  set P := o.take (a + 1) with hP
  set S := (o.drop (a + 1)).take (b - a) with hS
  set T := o.drop (b + 1) with hT
  have hPlen : P.length = a + 1 := by
    rw [hP, List.length_take]
    omega
  have hSlen : S.length = b - a := by
    rw [hS, List.length_take, List.length_drop]
    omega
  have hTlen : 0 < T.length := by
    rw [hT, List.length_drop]
    omega
  have hPne : P ≠ [] := by
    intro h
    rw [h] at hPlen
    simp at hPlen
  have hSne : S ≠ [] := by
    intro h
    rw [h] at hSlen
    simp at hSlen
    omega
  have hTne : T ≠ [] := by
    intro h
    rw [h] at hTlen
    simp at hTlen
  have hdec : o = P ++ (S ++ T) := by
    have h1 : S ++ (o.drop (a + 1)).drop (b - a) = o.drop (a + 1) := by
      rw [hS]
      exact List.take_append_drop _ _
    have h2 : (o.drop (a + 1)).drop (b - a) = T := by
      rw [hT, List.drop_drop]
      congr 1
      omega
    rw [hP]
    calc o = o.take (a + 1) ++ o.drop (a + 1) := (List.take_append_drop _ _).symm
      _ = o.take (a + 1) ++ (S ++ (o.drop (a + 1)).drop (b - a)) := by rw [h1]
      _ = o.take (a + 1) ++ (S ++ T) := by rw [h2]
  have hPa : P.getD a 0 = o.getD a 0 := by
    rw [List.getD_eq_getElem?_getD, List.getD_eq_getElem?_getD, hP,
      htake o (a + 1) a (by omega)]
  have hS0 : S.getD 0 0 = o.getD (a + 1) 0 := by
    rw [List.getD_eq_getElem?_getD, List.getD_eq_getElem?_getD, hS,
      htake _ (b - a) 0 (by omega), hdropE o (a + 1) 0]
  have hSlast : S.getD (S.length - 1) 0 = o.getD b 0 := by
    rw [hSlen, List.getD_eq_getElem?_getD, List.getD_eq_getElem?_getD, hS,
      htake _ (b - a) (b - a - 1) (by omega), hdropE o (a + 1) (b - a - 1),
      show a + 1 + (b - a - 1) = b from by omega]
  have hT0 : T.getD 0 0 = o.getD (b + 1) 0 := by
    rw [List.getD_eq_getElem?_getD, List.getD_eq_getElem?_getD, hT,
      hdropE o (b + 1) 0]
  have hSrev0 : S.reverse.getD 0 0 = o.getD b 0 := by
    rw [List.getD_eq_getElem?_getD,
      List.getElem?_reverse (by omega : (0 : ℕ) < S.length), Nat.sub_zero,
      ← List.getD_eq_getElem?_getD]
    exact hSlast
  have hSrevLast : S.reverse.getD (S.reverse.length - 1) 0 = o.getD (a + 1) 0 := by
    rw [List.length_reverse, List.getD_eq_getElem?_getD,
      List.getElem?_reverse (by omega : S.length - 1 < S.length),
      show S.length - 1 - (S.length - 1) = 0 from by omega,
      ← List.getD_eq_getElem?_getD]
    exact hS0
  have hA1 := tourLen_append_ne d P (S ++ T) hPne (by simp [hSne])
  have hA2 := tourLen_append_ne d S T hSne hTne
  have hA3 := tourLen_append_ne d P (S.reverse ++ T) hPne (by simp [hSne])
  have hA4 := tourLen_append_ne d S.reverse T (by simp [hSne]) hTne
  have hST0 : (S ++ T).getD 0 0 = o.getD (a + 1) 0 := by
    rw [List.getD_append _ _ _ _ (by omega)]
    exact hS0
  have hSrevT0 : (S.reverse ++ T).getD 0 0 = o.getD b 0 := by
    rw [List.getD_append _ _ _ _ (by rw [List.length_reverse]; omega)]
    exact hSrev0
  have hPidx : P.getD (P.length - 1) 0 = o.getD a 0 := by
    rw [hPlen, Nat.add_sub_cancel]
    exact hPa
  have hOld : tourLen d o = tourLen d P + d (o.getD a 0) (o.getD (a + 1) 0)
      + tourLen d S + d (o.getD b 0) (o.getD (b + 1) 0) + tourLen d T := by
    conv_lhs => rw [hdec]
    rw [hA1, hA2, hST0, hPidx, hSlast, hT0]
    ring
  have hrev : tourLen d S.reverse = tourLen d S := tourLen_reverse d hsym S
  rw [hA3, hA4, hrev, hSrevT0, hPidx, hSrevLast, hT0, hOld]
  unfold deltaAt
  ring

theorem findMove_bounds (d : ℕ → ℕ → ℚ) (o : List ℕ) (a b : ℕ)
    (h : findMove d o = some (a, b)) :
    a + 2 ≤ b ∧ b + 1 < o.length ∧ deltaAt d o a b < -epsQ := by
  unfold findMove at h
  have hp := List.find?_some h
  have hm := List.mem_of_find?_eq_some h
  unfold movePairs at hm
  rw [List.mem_flatMap] at hm
  obtain ⟨a', ha', hm2⟩ := hm
  rw [List.mem_map] at hm2
  obtain ⟨b', hb', heq⟩ := hm2
  rw [Prod.mk.injEq] at heq
  obtain ⟨rfl, rfl⟩ := heq
  rw [List.mem_range] at ha'
  rw [List.mem_range'_1] at hb'
  have hd := of_decide_eq_true hp
  exact ⟨by omega, by omega, hd⟩

theorem findMove_none_two_opt (d : ℕ → ℕ → ℚ) (m : ℕ) (o : List ℕ)
    (h : findMove d o = none) : two_opt d o m = o := by
  unfold two_opt
  by_cases hl : o.length < 4
  · rw [if_pos hl]
  · rw [if_neg hl]
    cases m with
    | zero => rfl
    | succ k => simp only [twoOptLoop, h]

theorem twoOptPass_le (d : ℕ → ℕ → ℚ) (hsym : ∀ i j, d i j = d j i)
    (o : List ℕ) : tourLen d (twoOptPass d o) ≤ tourLen d o := by
  unfold twoOptPass
  rcases hf : findMove d o with _ | ab
  · exact le_refl _
  · obtain ⟨h1, h2, h3⟩ := findMove_bounds d o ab.1 ab.2 hf
    rw [applyMove_tourLen d hsym o ab.1 ab.2 h1 h2]
    have heps : (0 : ℚ) < epsQ := by decide
    linarith

/-- C2 (amended): one pass of the 2-opt scan (the body of the `while
improved` loop, which applies at most the first improving move) never
increases the total tour length; and whenever a `two_opt` run ends with
no improving move remaining — which is the case whenever the scan
terminated before exhausting the `max_iters` cap — running `two_opt`
again on that output returns it unchanged. -/
theorem two_opt_pass_monotone_and_idempotent (d : ℕ → ℕ → ℚ)
    (hsym : ∀ i j, d i j = d j i) (o : List ℕ) (m : ℕ) :
    tourLen d (twoOptPass d o) ≤ tourLen d o
    ∧ (findMove d (two_opt d o m) = none →
        two_opt d (two_opt d o m) m = two_opt d o m) :=
  ⟨twoOptPass_le d hsym o, fun h => findMove_none_two_opt d m _ h⟩

/-- Witness for C2 on the collinear five-point configuration. -/
theorem two_opt_pass_monotone_and_idempotent_witness :
    tourLen dEx (twoOptPass dEx [0, 1, 2, 3, 4]) ≤ tourLen dEx [0, 1, 2, 3, 4]
    ∧ (findMove dEx (two_opt dEx [0, 1, 2, 3, 4] 1000) = none →
        two_opt dEx (two_opt dEx [0, 1, 2, 3, 4] 1000) 1000 =
          two_opt dEx [0, 1, 2, 3, 4] 1000) :=
  two_opt_pass_monotone_and_idempotent dEx
    (fun i j => abs_sub_comm (posEx i) (posEx j)) [0, 1, 2, 3, 4] 1000

/-- Counterexample to C2 as stated: on the collinear configuration
`posList`, a `two_opt` run capped at one iteration stops while an
improving move remains, so a second run changes the order again — the
unconditional idempotence claim fails once the iteration cap binds
(the cap is reachable for the default 1000 as well, on larger inputs). -/
theorem two_opt_idempotent_counterexample :
    two_opt dEx (two_opt dEx [0, 1, 2, 3, 4] 1) 1 ≠
      two_opt dEx [0, 1, 2, 3, 4] 1 := by
  have heps : (0 : ℚ) < epsQ := by decide
  have heps1 : epsQ < 1 := by decide
  have hmp : movePairs 5 = [(0, 2), (0, 3), (1, 3)] := by decide
  have hd1 : deltaAt dEx [0, 1, 2, 3, 4] 0 2 = -2 := by
    norm_num [deltaAt, dEx, posEx, posList]
  have hf1 : findMove dEx [0, 1, 2, 3, 4] = some (0, 2) := by
    unfold findMove
    rw [show ([0, 1, 2, 3, 4] : List ℕ).length = 5 from rfl, hmp]
    rw [List.find?_cons_of_pos _ (by
      simp only [decide_eq_true_eq]
      rw [hd1]
      linarith)]
  have h1 : two_opt dEx [0, 1, 2, 3, 4] 1 = [0, 2, 1, 3, 4] := by
    unfold two_opt
    rw [if_neg (by decide)]
    simp only [twoOptLoop, hf1]
    decide
  have hd2 : deltaAt dEx [0, 2, 1, 3, 4] 0 2 = 2 := by
    norm_num [deltaAt, dEx, posEx, posList]
  have hd3 : deltaAt dEx [0, 2, 1, 3, 4] 0 3 = 2 := by
    norm_num [deltaAt, dEx, posEx, posList]
  have hd4 : deltaAt dEx [0, 2, 1, 3, 4] 1 3 = -2 := by
    norm_num [deltaAt, dEx, posEx, posList]
  have hf2 : findMove dEx [0, 2, 1, 3, 4] = some (1, 3) := by
    unfold findMove
    rw [show ([0, 2, 1, 3, 4] : List ℕ).length = 5 from rfl, hmp]
    rw [List.find?_cons_of_neg _ (by
      simp only [decide_eq_true_eq]
      rw [hd2]
      intro hcon
      linarith)]
    rw [List.find?_cons_of_neg _ (by
      simp only [decide_eq_true_eq]
      rw [hd3]
      intro hcon
      linarith)]
    rw [List.find?_cons_of_pos _ (by
      simp only [decide_eq_true_eq]
      rw [hd4]
      linarith)]
  have h2 : two_opt dEx [0, 2, 1, 3, 4] 1 = [0, 2, 3, 1, 4] := by
    unfold two_opt
    rw [if_neg (by decide)]
    simp only [twoOptLoop, hf2]
    decide
  rw [h1, h2]
  decide
